import Mathlib

/-!
Verification of the job scheduler and checkpoint/resume subsystem of the
video-compress tool.  The Go sources (`internal/compressor/compressor.go`,
`internal/ffmpeg`, `internal/utils`) are shallowly embedded as pure Lean
functions: `int64` becomes `Int` (with explicit saturation where Go's
`strconv.ParseInt` clamps), `float64` durations become `ℚ`, the filesystem
becomes explicit maps, and the effectful worker bodies become explicit
state-trace functions.
-/

/- ===== External Process Runner: progress parsing (ffmpeg.Run) ===== -/

/-- Go `strconv.ParseInt(s, 10, 64)` with the returned error discarded, as in
the progress loop of `ffmpeg.Run` (`currentUs, _ := strconv.ParseInt(...)`):
syntax errors yield 0, out-of-range values saturate at the int64 bounds. -/
def goParseInt64 (s : List Char) : Int :=
  let core : Bool → List Char → Int := fun neg ds =>
    if ds = [] then 0
    else if ds.all Char.isDigit then
      let n : Nat := ds.foldl (fun acc c => acc * 10 + (c.toNat - 48)) 0
      if neg then (if 2 ^ 63 < n then -(2 ^ 63) else -(n : Int))
      else (if 2 ^ 63 ≤ n then 2 ^ 63 - 1 else (n : Int))
    else 0
  match s with
  | '+' :: rest => core false rest
  | '-' :: rest => core true rest
  | rest => core false rest

/-- Combined `strings.HasPrefix` / `strings.TrimPrefix`: the remainder of the
character list after the given leading pattern, when the pattern matches. -/
def dropLeading : List Char → List Char → Option (List Char)
  | [], s => some s
  | _ :: _, [] => none
  | p :: ps, c :: cs => if p = c then dropLeading ps cs else none

/-- The value a line contributes in `ffmpeg.Run`: lines of the form
`out_time_us=<v>` yield the (error-discarding) parse of `<v>`; all other
lines are skipped. -/
def parseOutTime (line : String) : Option Int :=
  match dropLeading ("out_time_us=").data line.data with
  | none => none
  | some rest => some (goParseInt64 rest)

/-- One iteration of the scanner loop in `ffmpeg.Run`.  State is
`(lastTimeUs, totalAdded)` where `totalAdded` records everything passed to
`globalBar.Add64` by this process so far. -/
def runLine (st : Int × Int) (line : String) : Int × Int :=
  match parseOutTime line with
  | none => st
  | some v => if st.1 < v then (v, st.2 + (v - st.1)) else st

/-- The whole scanner loop of `ffmpeg.Run` over the stdout lines of one
process, starting from `lastTimeUs = 0` and nothing added to the bar. -/
def runProgress (lines : List String) : Int × Int :=
  List.foldl runLine (0, 0) lines

/-- Total amount `ffmpeg.Run` adds to the shared progress bar for one
process' stdout lines. -/
def runTotal (lines : List String) : Int :=
  (runProgress lines).2

/-- The parsed values of the `out_time_us` lines, in order. -/
def outTimeValues (lines : List String) : List Int :=
  lines.filterMap parseOutTime

theorem le_foldl_max (l : List Int) : ∀ a : Int, a ≤ l.foldl max a := by
  induction l with
  | nil => intro a; exact le_refl a
  | cons x xs ih => intro a; exact le_trans (le_max_left a x) (ih (max a x))

theorem mem_le_foldl_max (l : List Int) :
    ∀ (a v : Int), v ∈ l → v ≤ l.foldl max a := by
  induction l with
  | nil => intro a v hv; cases hv
  | cons x xs ih =>
      intro a v hv
      cases hv with
      | head => exact le_trans (le_max_right a _) (le_foldl_max xs _)
      | tail _ h => exact ih (max a x) v h

theorem foldl_max_mem_or_eq (l : List Int) :
    ∀ a : Int, l.foldl max a ∈ l ∨ l.foldl max a = a := by
  induction l with
  | nil => intro a; exact Or.inr rfl
  | cons x xs ih =>
      intro a
      rcases ih (max a x) with h | h
      · exact Or.inl (List.mem_cons_of_mem x h)
      · rw [List.foldl_cons, h]
        rcases le_total a x with hax | hxa
        · exact Or.inl (by rw [max_eq_right hax]; exact List.mem_cons_self x xs)
        · exact Or.inr (max_eq_left hxa)

/-- The scanner loop computes, from any starting state, a running maximum in
the first component and the corresponding total of emitted deltas in the
second. -/
theorem runProgress_foldl (lines : List String) :
    ∀ last total : Int,
      (List.foldl runLine (last, total) lines).1 =
        (lines.filterMap parseOutTime).foldl max last ∧
      (List.foldl runLine (last, total) lines).2 =
        total + ((lines.filterMap parseOutTime).foldl max last - last) := by
  induction lines with
  | nil => intro last total; constructor <;> simp
  | cons l ls ih =>
      intro last total
      cases hp : parseOutTime l with
      | none =>
          simp only [List.foldl_cons, List.filterMap_cons, hp, runLine]
          exact ih last total
      | some v =>
          simp only [List.foldl_cons, List.filterMap_cons, hp, runLine]
          by_cases hlt : last < v
          · simp only [if_pos hlt]
            have hmax : max last v = v := max_eq_right (le_of_lt hlt)
            obtain ⟨h1, h2⟩ := ih v (total + (v - last))
            rw [hmax]
            exact ⟨h1, by rw [h2]; ring⟩
          · simp only [if_neg hlt]
            have hmax : max last v = last := max_eq_left (le_of_not_lt hlt)
            obtain ⟨h1, h2⟩ := ih last total
            rw [hmax]
            exact ⟨h1, h2⟩

/-- Claim C1: in `ffmpeg.Run`, `lastTimeUs` starts at 0 and each
`out_time_us=<v>` line adds `v - lastTimeUs` to the shared bar exactly when
the parsed `v` exceeds `lastTimeUs`; non-monotonic or unparsable lines add
nothing; consequently the total added for one process equals the maximum
parsed `out_time_us` value (0 if there is none). -/
theorem run_total_eq_max_out_time (lines : List String)
    (hnn : ∀ v ∈ outTimeValues lines, 0 ≤ v) :
    runTotal lines = (outTimeValues lines).foldl max 0 ∧
    (outTimeValues lines = [] → runTotal lines = 0) ∧
    (∀ v ∈ outTimeValues lines, v ≤ runTotal lines) ∧
    (outTimeValues lines ≠ [] → runTotal lines ∈ outTimeValues lines) := by
  obtain ⟨h1, h2⟩ := runProgress_foldl lines 0 0
  have htot : runTotal lines = (outTimeValues lines).foldl max 0 := by
    unfold runTotal runProgress
    rw [h2]
    unfold outTimeValues
    ring
  refine ⟨htot, ?_, ?_, ?_⟩
  · intro hnil
    rw [htot, hnil]
    rfl
  · intro v hv
    rw [htot]
    exact mem_le_foldl_max (outTimeValues lines) 0 v hv
  · intro hne
    rcases foldl_max_mem_or_eq (outTimeValues lines) 0 with h | h
    · rw [htot]; exact h
    · rw [htot, h]
      cases hvals : outTimeValues lines with
      | nil => exact absurd hvals hne
      | cons v vs =>
          have hv0 : 0 ≤ v := hnn v (by rw [hvals]; exact List.mem_cons_self v vs)
          have hvle : v ≤ (outTimeValues lines).foldl max 0 :=
            mem_le_foldl_max (outTimeValues lines) 0 v
              (by rw [hvals]; exact List.mem_cons_self v vs)
          have hveq : v = 0 := le_antisymm (by rw [← h]; exact hvle) hv0
          exact List.mem_cons.mpr (Or.inl hveq.symm)

theorem run_total_eq_max_out_time_witness :
    (∀ v ∈ outTimeValues (["out_time_us=5", "frame=12", "out_time_us=4",
        "out_time_us=x9", "out_time_us=9"]), 0 ≤ v) ∧
    runTotal (["out_time_us=5", "frame=12", "out_time_us=4",
        "out_time_us=x9", "out_time_us=9"]) =
      (outTimeValues (["out_time_us=5", "frame=12", "out_time_us=4",
        "out_time_us=x9", "out_time_us=9"])).foldl max 0 ∧
    runTotal (["out_time_us=5", "frame=12", "out_time_us=4",
        "out_time_us=x9", "out_time_us=9"]) = 9 :=
  ⟨by decide,
   (run_total_eq_max_out_time _ (by decide)).1,
   by decide⟩

/- ===== Checkpoint Store (ResumeState) ===== -/

/-- `os.Stat` result as used by the checkpoint logic: file size in bytes and
modification time as a Unix timestamp (`info.Size()`, `info.ModTime().Unix()`). -/
structure FileInfo where
  size : Int
  modUnix : Int
deriving DecidableEq

/-- A filesystem view for `os.Stat`: `none` means the stat call fails
(typically: the file does not exist). -/
def StatFs : Type := String → Option FileInfo

/-- One record of the checkpoint store (`ResumeEntry` in the source). -/
structure ResumeEntry where
  InputFile : String
  OutputFile : String
  InputSize : Int
  InputModUnix : Int
  CompletedAt : String
deriving DecidableEq

/-- The checkpoint store (`ResumeState`).  The Go `map[string]ResumeEntry` is
modelled as an association list whose lookup returns the first (most
recently inserted) binding, which matches map insert/overwrite semantics
for every lookup the source performs. -/
structure ResumeState where
  completed : List (String × ResumeEntry)
deriving DecidableEq

def emptyResumeState : ResumeState := ⟨[]⟩

/-- Map lookup `state.Completed[inputFile]`. -/
def lookupCompleted : List (String × ResumeEntry) → String → Option ResumeEntry
  | [], _ => none
  | (k, v) :: rest, key => if key = k then some v else lookupCompleted rest key

/-- `markCompleted` from the source: insert/overwrite the record for
`inputFile`; the `CompletedAt` timestamp (`time.Now().Format(...)`) is passed
in as `now`. -/
def markCompleted (state : ResumeState) (inputFile outputFile : String)
    (inputSize inputModUnix : Int) (now : String) : ResumeState :=
  ⟨(inputFile,
    { InputFile := inputFile
      OutputFile := outputFile
      InputSize := inputSize
      InputModUnix := inputModUnix
      CompletedAt := now }) :: state.completed⟩

/-- `isCompletedAndUnchanged` from the source, over a stat view of the disk. -/
def isCompletedAndUnchanged (fs : StatFs) (state : ResumeState)
    (inputFile outputFile : String) : Bool :=
  match lookupCompleted state.completed inputFile with
  | none => false
  | some entry =>
    if entry.OutputFile ≠ outputFile then false
    else
      match fs inputFile with
      | none => false
      | some inputInfo =>
        if inputInfo.size ≠ entry.InputSize ∨ inputInfo.modUnix ≠ entry.InputModUnix
        then false
        else (fs outputFile).isSome

/-- The freshness condition exactly as the specification words it: a record
exists, its recorded output path matches, the input's current size and mtime
equal the recorded fingerprint, and the output file exists on disk. -/
def freshSpec (fs : StatFs) (state : ResumeState) (inputFile outputFile : String) : Prop :=
  ∃ entry inputInfo,
    lookupCompleted state.completed inputFile = some entry ∧
    entry.OutputFile = outputFile ∧
    fs inputFile = some inputInfo ∧
    inputInfo.size = entry.InputSize ∧
    inputInfo.modUnix = entry.InputModUnix ∧
    (fs outputFile).isSome = true

/-- Claim C3: `isCompletedAndUnchanged` returns true iff a record for the
input exists, its recorded output path equals the requested one, the input's
current size and mtime equal the recorded fingerprint, and the output file
exists; in particular a mutated size or mtime makes it return false. -/
theorem isCompletedAndUnchanged_iff_fresh (fs : StatFs) (state : ResumeState)
    (inputFile outputFile : String) :
    (isCompletedAndUnchanged fs state inputFile outputFile = true ↔
      freshSpec fs state inputFile outputFile) ∧
    (∀ entry inputInfo,
      lookupCompleted state.completed inputFile = some entry →
      fs inputFile = some inputInfo →
      (inputInfo.size ≠ entry.InputSize ∨ inputInfo.modUnix ≠ entry.InputModUnix) →
      isCompletedAndUnchanged fs state inputFile outputFile = false) := by
  constructor
  · constructor
    · intro hb
      cases hl : lookupCompleted state.completed inputFile with
      | none => simp [isCompletedAndUnchanged, hl] at hb
      | some entry =>
          cases hfi : fs inputFile with
          | none => simp [isCompletedAndUnchanged, hl, hfi] at hb
          | some inputInfo =>
              simp only [isCompletedAndUnchanged, hl, hfi] at hb
              split_ifs at hb with hout hfp
              push_neg at hout hfp
              exact ⟨entry, inputInfo, hl, hout, hfi, hfp.1, hfp.2, hb⟩
    · rintro ⟨entry, inputInfo, hl, hout, hfi, hsz, hmt, hos⟩
      simp only [isCompletedAndUnchanged, hl, hfi]
      rw [if_neg (by simp [hout]), if_neg (by simp [hsz, hmt])]
      exact hos
  · intro entry inputInfo hl hfi hfp
    simp only [isCompletedAndUnchanged, hl, hfi]
    by_cases h1 : entry.OutputFile ≠ outputFile
    · rw [if_pos h1]
    · rw [if_neg h1, if_pos hfp]

theorem isCompletedAndUnchanged_iff_fresh_witness :
    isCompletedAndUnchanged
      (fun p => if p = ("a.mp4") then some ⟨100, 7⟩ else none)
      ⟨[(("a.mp4"), ⟨("a.mp4"), ("out.mp4"), 100, 8, ("t")⟩)]⟩
      ("a.mp4") ("out.mp4") = false :=
  (isCompletedAndUnchanged_iff_fresh
      (fun p => if p = ("a.mp4") then some ⟨100, 7⟩ else none)
      ⟨[(("a.mp4"), ⟨("a.mp4"), ("out.mp4"), 100, 8, ("t")⟩)]⟩
      ("a.mp4") ("out.mp4")).2
    ⟨("a.mp4"), ("out.mp4"), 100, 8, ("t")⟩ ⟨100, 7⟩
    (by decide) (by decide) (by decide)

/- ===== Checkpoint persistence (loadResumeState / saveResumeState) ===== -/

/-- Go `unicode.IsSpace` on the Latin-1 range, the characters relevant to
`strings.TrimSpace` on checkpoint files. -/
def goIsSpace (c : Char) : Bool :=
  ([' ', '\t', '\n', '\x0B', '\x0C', '\r', '\u0085', '\u00A0'].contains c)

/-- Whether `len(strings.TrimSpace(string(data))) == 0`: every character of
the content is whitespace (this includes the empty string). -/
def isBlankContent (content : String) : Bool :=
  content.data.all goIsSpace

/-- Modelled from the spec: the `encoding/json` marshalling used by the
checkpoint store is library code outside this repository.  The spec fixes
the checkpoint file as a JSON object `\x7b"completed": ...\x7d`, so a file's
raw content either is the serialization of some store (`stateJson`, never
blank, unmarshalling back to that store) or it is not a valid serialization
at all (`bytes`, carrying the raw text so the source's blank-content check
can be applied to it). -/
inductive VFile where
  | bytes (content : String) : VFile
  | stateJson (s : ResumeState) : VFile
deriving DecidableEq

/-- Result of `loadResumeState` (`(*ResumeState, error)` in Go). -/
inductive LoadResult where
  | ok (s : ResumeState)
  | error
deriving DecidableEq

/-- `loadResumeState` from the source: a missing file yields the empty store
with no error; content whose trimmed length is zero yields the empty store
with no error; otherwise the content is unmarshalled, and an unmarshalling
failure is an error.  (The `state.Completed == nil` fix-up after a successful
unmarshal is the identity in this model, where the map is total.) -/
def loadResumeState (file : Option VFile) : LoadResult :=
  match file with
  | none => LoadResult.ok emptyResumeState
  | some (VFile.bytes content) =>
      if isBlankContent content then LoadResult.ok emptyResumeState
      else LoadResult.error
  | some (VFile.stateJson s) => LoadResult.ok s

/-- `saveResumeState` from the source, as its effect on the file map: the
serialized store is written to `path + ".tmp"` and then renamed onto `path`
(so afterwards `path` holds the serialization and the temp name is gone). -/
def saveResumeState (files : String → Option VFile) (path : String)
    (state : ResumeState) : String → Option VFile :=
  fun p =>
    if p = path then some (VFile.stateJson state)
    else if p = path ++ ".tmp" then none
    else files p

/-- Counterexample to claim C6 as stated: a file whose content is a single
space is not a valid serialization of the checkpoint mapping, yet
`loadResumeState` returns the empty store and no error for it, because the
source returns early when the trimmed content is empty. -/
theorem loadResumeState_blank_counterexample :
    loadResumeState (some (VFile.bytes (" "))) = LoadResult.ok emptyResumeState ∧
    loadResumeState (some (VFile.bytes (" "))) ≠ LoadResult.error := by
  constructor
  · decide
  · decide

/-- Claim C6 (amended): `loadResumeState` on a missing file returns the empty
store and no error; on malformed contents it returns an error — unless the
malformed contents are blank (empty or whitespace-only), in which case it
returns the empty store and no error, exactly like a missing file. -/
theorem loadResumeState_behavior :
    loadResumeState none = LoadResult.ok emptyResumeState ∧
    (∀ content, isBlankContent content = false →
      loadResumeState (some (VFile.bytes content)) = LoadResult.error) ∧
    (∀ content, isBlankContent content = true →
      loadResumeState (some (VFile.bytes content)) = LoadResult.ok emptyResumeState) := by
  refine ⟨rfl, ?_, ?_⟩
  · intro content hc
    simp [loadResumeState, hc]
  · intro content hc
    simp [loadResumeState, hc]

theorem loadResumeState_behavior_witness :
    isBlankContent ("garbage") = false ∧
    loadResumeState (some (VFile.bytes ("garbage"))) = LoadResult.error :=
  ⟨by decide, loadResumeState_behavior.2.1 ("garbage") (by decide)⟩

/- ===== Job discovery (ScanJobs / addFile) ===== -/

/-- One unit of work (`Job` in the source); `float64` durations are modelled
as rationals. -/
structure Job where
  InputFile : String
  OutputFile : String
  TempFile : String
  DurationSec : ℚ
deriving DecidableEq

/-- Per-file outcome record (`ReportItem` in the source). -/
structure ReportItem where
  InputFile : String := ""
  OutputFile : String := ""
  Status : String := ""
  Reason : String := ""
  OriginalSize : Int := 0
  NewSize : Int := 0
  Command : String := ""
deriving DecidableEq

/-- `strings.ToLower`, character-wise (ASCII is what the overwrite prompt
compares against). -/
def goToLower (s : String) : String :=
  ⟨s.data.map Char.toLower⟩

/-- `strings.TrimSpace`: drop leading and trailing whitespace. -/
def goTrimSpace (s : String) : String :=
  ⟨((s.data.dropWhile goIsSpace).reverse.dropWhile goIsSpace).reverse⟩

/-- What `addFile` inside `ScanJobs` decides for one candidate path: either a
skip (an `Ignored` or `Failed` report item) or a job to schedule. -/
inductive AddFileResult where
  | skip (item : ReportItem) : AddFileResult
  | job (j : Job) : AddFileResult
deriving DecidableEq

/-- The decision logic of `addFile` in `ScanJobs`, in source order: the
compressed-name test, then the resume-checkpoint test, then the
overwrite prompt when the output already exists, then the duration probe.
Collaborators outside the checkpoint logic are passed in as functions:
`abs` is `filepath.Abs` (falling back to the original path on error),
`compressedName` is the lowercased `.compressed`-suffix test on the
extension-stripped base name, `getOut` is `getOutputPath`, `answer` is the
raw line read from stdin for the overwrite prompt, and `probe` is
`utils.GetVideoDuration` (`none` = probe error).  The `Failed` reason is the
probe-failure message without the formatted Go error. -/
def addFileDecision (abs : String → String) (compressedName : String → Bool)
    (getOut : String → String) (fs : StatFs) (state : ResumeState)
    (answer : String → String) (probe : String → Option ℚ)
    (path0 : String) : AddFileResult :=
  let path := abs path0
  if compressedName path then
    AddFileResult.skip { InputFile := path, Status := "Ignored",
                         Reason := "Filename indicates already compressed" }
  else
    let outputFile := getOut path
    if isCompletedAndUnchanged fs state path outputFile then
      AddFileResult.skip { InputFile := path, Status := "Ignored",
                           Reason := "Resume checkpoint: already completed" }
    else
      let declined : Bool :=
        match fs outputFile with
        | some _ =>
            let a := goTrimSpace (goToLower (answer outputFile))
            (a != ("y")) && (a != ("yes"))
        | none => false
      if declined then
        AddFileResult.skip { InputFile := path, Status := "Ignored",
                             Reason := "目标文件已存在 (用户选择跳过)" }
      else
        match probe path with
        | none =>
            AddFileResult.skip { InputFile := path, Status := "Failed",
                                 Reason := "Read info failed" }
        | some dur =>
            AddFileResult.job { InputFile := path, OutputFile := outputFile,
                                TempFile := outputFile ++ ".vcpart",
                                DurationSec := dur }

/-- Accumulator of `ScanJobs`: the selected jobs, the ignored/failed report
items, and the running `totalDuration`. -/
structure ScanAcc where
  jobs : List Job
  ignored : List ReportItem
  totalDuration : ℚ
deriving DecidableEq

/-- One `addFile` call as `ScanJobs` performs it: a skip appends a report
item, a job appends the job and adds its duration to `totalDuration`. -/
def scanStep (abs : String → String) (compressedName : String → Bool)
    (getOut : String → String) (fs : StatFs) (state : ResumeState)
    (answer : String → String) (probe : String → Option ℚ)
    (acc : ScanAcc) (path : String) : ScanAcc :=
  match addFileDecision abs compressedName getOut fs state answer probe path with
  | AddFileResult.skip item => { acc with ignored := acc.ignored ++ [item] }
  | AddFileResult.job j =>
      { acc with jobs := acc.jobs ++ [j],
                 totalDuration := acc.totalDuration + j.DurationSec }

/-- `ScanJobs` over the candidate video files produced by the directory walk
(or the single input file), starting from empty accumulators. -/
def scanJobs (abs : String → String) (compressedName : String → Bool)
    (getOut : String → String) (fs : StatFs) (state : ResumeState)
    (answer : String → String) (probe : String → Option ℚ)
    (paths : List String) : ScanAcc :=
  paths.foldl (scanStep abs compressedName getOut fs state answer probe) ⟨[], [], 0⟩

theorem scanStep_duration_invariant (abs : String → String)
    (compressedName : String → Bool) (getOut : String → String) (fs : StatFs)
    (state : ResumeState) (answer : String → String) (probe : String → Option ℚ) :
    ∀ (paths : List String) (acc : ScanAcc),
      acc.totalDuration = (acc.jobs.map Job.DurationSec).sum →
      (paths.foldl (scanStep abs compressedName getOut fs state answer probe) acc).totalDuration =
        ((paths.foldl (scanStep abs compressedName getOut fs state answer probe) acc).jobs.map
          Job.DurationSec).sum := by
  intro paths
  induction paths with
  | nil => intro acc h; exact h
  | cons p ps ih =>
      intro acc h
      rw [List.foldl_cons]
      apply ih
      unfold scanStep
      cases addFileDecision abs compressedName getOut fs state answer probe p with
      | skip item => exact h
      | job j => simp [h]

/-- Claim C10: the `totalDuration` returned by `ScanJobs` equals the sum of
`DurationSec` over exactly the jobs in the returned job list; ignored and
failed discovery entries contribute nothing. -/
theorem scan_totalDuration_eq_jobs_sum (abs : String → String)
    (compressedName : String → Bool) (getOut : String → String) (fs : StatFs)
    (state : ResumeState) (answer : String → String) (probe : String → Option ℚ)
    (paths : List String) :
    (scanJobs abs compressedName getOut fs state answer probe paths).totalDuration =
      ((scanJobs abs compressedName getOut fs state answer probe paths).jobs.map
        Job.DurationSec).sum :=
  scanStep_duration_invariant abs compressedName getOut fs state answer probe
    paths ⟨[], [], 0⟩ (by simp)

/- ===== Whole-file resume idempotence (C4) ===== -/

theorem addFileDecision_fresh_skip (abs : String → String)
    (compressedName : String → Bool) (getOut : String → String) (fs : StatFs)
    (state : ResumeState) (answer : String → String) (probe : String → Option ℚ)
    (p : String)
    (hfresh : isCompletedAndUnchanged fs state (abs p) (getOut (abs p)) = true) :
    ∃ item, addFileDecision abs compressedName getOut fs state answer probe p =
        AddFileResult.skip item ∧ item.Status = ("Ignored") := by
  unfold addFileDecision
  by_cases hc : compressedName (abs p) = true
  · rw [if_pos hc]
    exact ⟨_, rfl, rfl⟩
  · rw [if_neg hc, if_pos hfresh]
    exact ⟨_, rfl, rfl⟩

theorem scanJobs_all_fresh_aux (abs : String → String)
    (compressedName : String → Bool) (getOut : String → String) (fs : StatFs)
    (state : ResumeState) (answer : String → String) (probe : String → Option ℚ) :
    ∀ (paths : List String) (acc : ScanAcc),
      (∀ p ∈ paths, isCompletedAndUnchanged fs state (abs p) (getOut (abs p)) = true) →
      (paths.foldl (scanStep abs compressedName getOut fs state answer probe) acc).jobs =
        acc.jobs ∧
      (∀ item ∈ (paths.foldl (scanStep abs compressedName getOut fs state answer probe)
          acc).ignored, item ∈ acc.ignored ∨ item.Status = ("Ignored")) := by
  intro paths
  induction paths with
  | nil => intro acc _; exact ⟨rfl, fun item h => Or.inl h⟩
  | cons p ps ih =>
      intro acc hall
      rw [List.foldl_cons]
      obtain ⟨item, hdec, hst⟩ :=
        addFileDecision_fresh_skip abs compressedName getOut fs state answer probe p
          (hall p (List.mem_cons_self p ps))
      have hstep : scanStep abs compressedName getOut fs state answer probe acc p =
          { acc with ignored := acc.ignored ++ [item] } := by
        unfold scanStep
        rw [hdec]
      rw [hstep]
      obtain ⟨hjobs, hign⟩ := ih { acc with ignored := acc.ignored ++ [item] }
        (fun q hq => hall q (List.mem_cons_of_mem p hq))
      refine ⟨hjobs, fun it hit => ?_⟩
      rcases hign it hit with hmem | hs
      · rcases List.mem_append.mp hmem with h1 | h1
        · exact Or.inl h1
        · right
          rw [List.mem_singleton.mp h1]
          exact hst
      · exact Or.inr hs

/-- Claim C4: after a successful job, `markCompleted` followed by
`saveResumeState` and `loadResumeState` yields a store that contains a record
for the input whose recorded size and modification time match the file on
disk, the freshness check returns true for it, and a second scan of an input
set that is entirely fresh selects zero jobs, every entry being reported as
skipped (`Ignored`). -/
theorem mark_save_load_then_skip (abs : String → String)
    (compressedName : String → Bool) (getOut : String → String) (fs : StatFs)
    (files : String → Option VFile) (state : ResumeState)
    (answer : String → String) (probe : String → Option ℚ)
    (statePath inputFile outputFile now : String) (sz mt : Int)
    (hin : fs inputFile = some ⟨sz, mt⟩)
    (hout : (fs outputFile).isSome = true) :
    loadResumeState
        (saveResumeState files statePath
          (markCompleted state inputFile outputFile sz mt now) statePath) =
      LoadResult.ok (markCompleted state inputFile outputFile sz mt now) ∧
    (∃ e, lookupCompleted (markCompleted state inputFile outputFile sz mt now).completed
        inputFile = some e ∧
      e.InputSize = sz ∧ e.InputModUnix = mt ∧ e.OutputFile = outputFile) ∧
    isCompletedAndUnchanged fs (markCompleted state inputFile outputFile sz mt now)
      inputFile outputFile = true ∧
    (∀ paths : List String,
      (∀ p ∈ paths,
        isCompletedAndUnchanged fs (markCompleted state inputFile outputFile sz mt now)
          (abs p) (getOut (abs p)) = true) →
      (scanJobs abs compressedName getOut fs
          (markCompleted state inputFile outputFile sz mt now) answer probe paths).jobs =
        [] ∧
      (∀ item ∈ (scanJobs abs compressedName getOut fs
          (markCompleted state inputFile outputFile sz mt now) answer probe
          paths).ignored, item.Status = ("Ignored"))) := by
  refine ⟨?_, ?_, ?_, ?_⟩
  · simp [saveResumeState, loadResumeState]
  · refine ⟨{ InputFile := inputFile, OutputFile := outputFile, InputSize := sz,
              InputModUnix := mt, CompletedAt := now }, ?_, rfl, rfl, rfl⟩
    simp [markCompleted, lookupCompleted]
  · simp [isCompletedAndUnchanged, markCompleted, lookupCompleted, hin, hout]
  · intro paths hall
    obtain ⟨hjobs, hign⟩ := scanJobs_all_fresh_aux abs compressedName getOut fs
      (markCompleted state inputFile outputFile sz mt now) answer probe paths
      ⟨[], [], 0⟩ hall
    refine ⟨hjobs, fun item hit => ?_⟩
    rcases hign item hit with hmem | hs
    · cases hmem
    · exact hs

theorem mark_save_load_then_skip_witness :
    (fun p => if p = ("a.mp4") then some (FileInfo.mk 100 7)
              else if p = ("a.compressed.mp4") then some (FileInfo.mk 40 9)
              else none : StatFs) ("a.mp4") = some (FileInfo.mk 100 7) ∧
    (scanJobs (fun s => s) (fun _ => false) (fun _ => ("a.compressed.mp4"))
        (fun p => if p = ("a.mp4") then some (FileInfo.mk 100 7)
                  else if p = ("a.compressed.mp4") then some (FileInfo.mk 40 9)
                  else none)
        (markCompleted emptyResumeState ("a.mp4") ("a.compressed.mp4") 100 7 ("t"))
        (fun _ => ("")) (fun _ => some 120) (["a.mp4"])).jobs = [] := by
  constructor
  · decide
  · exact ((mark_save_load_then_skip (fun s => s) (fun _ => false)
      (fun _ => ("a.compressed.mp4"))
      (fun p => if p = ("a.mp4") then some (FileInfo.mk 100 7)
                else if p = ("a.compressed.mp4") then some (FileInfo.mk 40 9)
                else none)
      (fun _ => none) emptyResumeState (fun _ => ("")) (fun _ => some 120)
      ("sp") ("a.mp4") ("a.compressed.mp4") ("t") 100 7
      (by decide) (by decide)).2.2.2 (["a.mp4"]) (by decide)).1

/- ===== Batch mode worker (Process, per-job goroutine body) ===== -/

/-- Shared mutable state a batch worker touches: which files exist on disk,
the in-memory checkpoint store, and the checkpoint contents last persisted
by `saveResumeState` (the on-disk store file). -/
structure BatchState where
  files : String → Bool
  store : ResumeState
  persisted : ResumeState

/-- Point update of the existence map. -/
def setFile (fs : String → Bool) (k : String) (b : Bool) : String → Bool :=
  fun x => if x = k then b else fs x

/-- Worker state after the initial `os.Remove(j.TempFile)`. -/
def workerRemovedTemp (j : Job) (s0 : BatchState) : BatchState :=
  { s0 with files := setFile s0.files j.TempFile false }

/-- Worker state while/after `ffmpeg.Run` writes the temp output. -/
def workerRan (j : Job) (s0 : BatchState) : BatchState :=
  { workerRemovedTemp j s0 with
      files := setFile (workerRemovedTemp j s0).files j.TempFile true }

/-- Worker state after the failure path's `os.Remove(j.TempFile)` (taken both
when the encode fails and when the rename fails). -/
def workerFailed (j : Job) (s0 : BatchState) : BatchState :=
  { workerRan j s0 with
      files := setFile (workerRan j s0).files j.TempFile false }

/-- Worker state after `os.Rename(j.TempFile, j.OutputFile)` succeeds. -/
def workerRenamed (j : Job) (s0 : BatchState) : BatchState :=
  { workerRan j s0 with
      files := setFile (setFile (workerRan j s0).files j.TempFile false)
        j.OutputFile true }

/-- Worker state after `markCompleted` on the shared store. -/
def workerMarked (j : Job) (sz mt : Int) (now : String) (s0 : BatchState) :
    BatchState :=
  { workerRenamed j s0 with
      store := markCompleted (workerRenamed j s0).store j.InputFile j.OutputFile
        sz mt now }

/-- Worker state after `saveResumeState` persists the shared store. -/
def workerSaved (j : Job) (sz mt : Int) (now : String) (s0 : BatchState) :
    BatchState :=
  { workerMarked j sz mt now s0 with persisted := (workerMarked j sz mt now s0).store }

/-- The straight-line body of one batch worker in `Process`, as the list of
states it passes through (first element = initial state): remove any stale
temp file; run the encoder, which writes the temp file; on failure remove
the temp file and change nothing else; on success rename temp onto the final
output, then mark the checkpoint store and persist it.  `encodeOk` is
whether `ffmpeg.Run` returned nil, `renameOk` whether `os.Rename` succeeded;
`sz`/`mt` are the fingerprint snapshot taken before the run and `now` the
completion timestamp. -/
def workerTrace (j : Job) (encodeOk renameOk : Bool) (sz mt : Int)
    (now : String) (s0 : BatchState) : List BatchState :=
  if encodeOk then
    if renameOk then
      [s0, workerRemovedTemp j s0, workerRan j s0, workerRenamed j s0,
       workerMarked j sz mt now s0, workerSaved j sz mt now s0]
    else
      [s0, workerRemovedTemp j s0, workerRan j s0, workerFailed j s0]
  else
    [s0, workerRemovedTemp j s0, workerRan j s0, workerFailed j s0]

/-- The state a batch worker leaves behind. -/
def workerFinal (j : Job) (encodeOk renameOk : Bool) (sz mt : Int)
    (now : String) (s0 : BatchState) : BatchState :=
  (workerTrace j encodeOk renameOk sz mt now s0).getLast?.getD s0

theorem vcpart_suffix_ne (o : String) : o ++ (".vcpart") ≠ o := by
  intro h
  have hl : (o ++ (".vcpart")).length = o.length := congrArg String.length h
  have h7 : (String.length (".vcpart")) = 7 := rfl
  rw [String.length_append, h7] at hl
  omega

/-- Claim C2: in batch mode, a failed encode leaves the temp file removed and
the checkpoint store (in memory and persisted) unchanged; a successful
encode renames temp to the final output before marking and persisting, so at
no point of the worker's execution does the checkpoint hold a record for an
input whose final output file is absent (given that no record for the input
pre-existed). -/
theorem worker_atomic_checkpoint (j : Job) (encodeOk renameOk : Bool)
    (sz mt : Int) (now : String) (s0 : BatchState)
    (htmp : j.TempFile = j.OutputFile ++ (".vcpart"))
    (hrec : lookupCompleted s0.store.completed j.InputFile = none)
    (hrecp : lookupCompleted s0.persisted.completed j.InputFile = none) :
    (encodeOk = false →
      (workerFinal j encodeOk renameOk sz mt now s0).files j.TempFile = false ∧
      (workerFinal j encodeOk renameOk sz mt now s0).store = s0.store ∧
      (workerFinal j encodeOk renameOk sz mt now s0).persisted = s0.persisted) ∧
    (encodeOk = true → renameOk = true →
      (workerFinal j encodeOk renameOk sz mt now s0).files j.OutputFile = true ∧
      (workerFinal j encodeOk renameOk sz mt now s0).files j.TempFile = false ∧
      (∃ e, lookupCompleted
          (workerFinal j encodeOk renameOk sz mt now s0).store.completed
          j.InputFile = some e ∧ e.InputSize = sz ∧ e.InputModUnix = mt ∧
          e.OutputFile = j.OutputFile) ∧
      (workerFinal j encodeOk renameOk sz mt now s0).persisted =
        (workerFinal j encodeOk renameOk sz mt now s0).store) ∧
    (∀ st ∈ workerTrace j encodeOk renameOk sz mt now s0,
      (lookupCompleted st.store.completed j.InputFile ≠ none ∨
       lookupCompleted st.persisted.completed j.InputFile ≠ none) →
      st.files j.OutputFile = true) := by
  have hne : j.TempFile ≠ j.OutputFile := by
    rw [htmp]
    exact vcpart_suffix_ne j.OutputFile
  have hne2 : ¬(j.OutputFile = j.TempFile) := fun h => hne h.symm
  refine ⟨?_, ?_, ?_⟩
  · intro he
    subst he
    unfold workerFinal workerTrace
    simp [workerFailed, workerRan, workerRemovedTemp, setFile]
  · intro he hr
    subst he
    subst hr
    unfold workerFinal workerTrace
    refine ⟨?_, ?_, ?_, ?_⟩
    · simp [workerSaved, workerMarked, workerRenamed, setFile]
    · simp [workerSaved, workerMarked, workerRenamed, workerRan,
        workerRemovedTemp, setFile, hne, hne2]
    · refine ⟨{ InputFile := j.InputFile, OutputFile := j.OutputFile,
                InputSize := sz, InputModUnix := mt, CompletedAt := now },
              ?_, rfl, rfl, rfl⟩
      simp [workerSaved, workerMarked, markCompleted, lookupCompleted]
    · simp [workerSaved]
  · intro st hst hrecst
    have houtTrue : (workerRenamed j s0).files j.OutputFile = true := by
      simp [workerRenamed, setFile]
    cases hek : encodeOk with
    | false =>
        subst hek
        simp only [workerTrace, Bool.false_eq_true, if_false, List.mem_cons,
          List.not_mem_nil, or_false] at hst
        have hstores : st.store = s0.store ∧ st.persisted = s0.persisted := by
          rcases hst with h | h | h | h <;> subst h <;>
            simp [workerFailed, workerRan, workerRemovedTemp]
        rw [hstores.1, hstores.2] at hrecst
        rcases hrecst with hc | hc
        · exact absurd hrec hc
        · exact absurd hrecp hc
    | true =>
        subst hek
        cases hrk : renameOk with
        | false =>
            subst hrk
            simp only [workerTrace, Bool.false_eq_true, if_false, if_true,
              List.mem_cons, List.not_mem_nil, or_false] at hst
            have hstores : st.store = s0.store ∧ st.persisted = s0.persisted := by
              rcases hst with h | h | h | h <;> subst h <;>
                simp [workerFailed, workerRan, workerRemovedTemp]
            rw [hstores.1, hstores.2] at hrecst
            rcases hrecst with hc | hc
            · exact absurd hrec hc
            · exact absurd hrecp hc
        | true =>
            subst hrk
            simp only [workerTrace, if_true, List.mem_cons,
              List.not_mem_nil, or_false] at hst
            rcases hst with h | h | h | h | h | h <;> subst h
            · rcases hrecst with hc | hc
              · exact absurd hrec hc
              · exact absurd hrecp hc
            · have : (workerRemovedTemp j s0).store = s0.store ∧
                  (workerRemovedTemp j s0).persisted = s0.persisted := by
                simp [workerRemovedTemp]
              rw [this.1, this.2] at hrecst
              rcases hrecst with hc | hc
              · exact absurd hrec hc
              · exact absurd hrecp hc
            · have : (workerRan j s0).store = s0.store ∧
                  (workerRan j s0).persisted = s0.persisted := by
                simp [workerRan, workerRemovedTemp]
              rw [this.1, this.2] at hrecst
              rcases hrecst with hc | hc
              · exact absurd hrec hc
              · exact absurd hrecp hc
            · exact houtTrue
            · simpa [workerMarked] using houtTrue
            · simpa [workerSaved, workerMarked] using houtTrue

theorem worker_atomic_checkpoint_witness :
    (Job.mk ("a.mp4") ("a.compressed.mp4") ("a.compressed.mp4" ++ (".vcpart"))
        120).TempFile =
      (Job.mk ("a.mp4") ("a.compressed.mp4") ("a.compressed.mp4" ++ (".vcpart"))
        120).OutputFile ++ (".vcpart") ∧
    (workerFinal
        (Job.mk ("a.mp4") ("a.compressed.mp4") ("a.compressed.mp4" ++ (".vcpart"))
          120) false true 100 7 ("t")
        (BatchState.mk (fun _ => false) emptyResumeState emptyResumeState)).store =
      emptyResumeState :=
  ⟨rfl,
   by
    have h := (worker_atomic_checkpoint
      (Job.mk ("a.mp4") ("a.compressed.mp4") ("a.compressed.mp4" ++ (".vcpart"))
        120) false true 100 7 ("t")
      (BatchState.mk (fun _ => false) emptyResumeState emptyResumeState)
      rfl rfl rfl).1 rfl
    exact h.2.1⟩

/- ===== Batch scheduling loop (Process) ===== -/

/-- The `ReportItem` a batch worker appends to the shared results list (size
and command fields are left at their defaults; they play no role in the
scheduling claims).  On encode failure the reason is the runner's error
text; on rename failure it is the finalize message; otherwise the job is
`Processed`. -/
def workerReport (j : Job) (encodeOk renameOk : Bool) (errMsg : String) :
    ReportItem :=
  if encodeOk then
    if renameOk then
      { InputFile := j.InputFile, OutputFile := j.OutputFile,
        Status := "Processed" }
    else
      { InputFile := j.InputFile, OutputFile := j.OutputFile,
        Status := "Failed", Reason := "finalize output failed" }
  else
    { InputFile := j.InputFile, OutputFile := j.OutputFile,
      Status := "Failed", Reason := errMsg }

/-- The cancellation observations and run outcome of one job in the batch
loop of `Process`: whether `ctx.Err() != nil` at the top of the admission
loop, whether the admission `select` took `ctx.Done()`, whether the spawned
goroutine saw `ctx.Err() != nil` at its start, and how the encode went.
Cancellation is observed at distinct points, so the flags are independent
(a realistic run has them monotone along the job order). -/
structure JobSchedule where
  cancelAtLoop : Bool
  cancelAtAdmit : Bool
  cancelAtStart : Bool
  encodeOk : Bool
  renameOk : Bool
  errMsg : String
deriving DecidableEq

/-- The batch loop of `Process` over jobs with their per-job schedule:
returns the admitted jobs (those whose goroutine was launched) and the
collected results list.  A cancellation observed at the loop top or in the
admission `select` stops admitting; an admitted goroutine that observes
cancellation at its start returns without appending any result (the early
`if ctx.Err() != nil: return` in the source). -/
def processBatch : List (Job × JobSchedule) → List Job × List ReportItem
  | [] => ([], [])
  | (j, s) :: rest =>
    if s.cancelAtLoop then ([], [])
    else if s.cancelAtAdmit then ([], [])
    else
      let pr := processBatch rest
      if s.cancelAtStart then (j :: pr.1, pr.2)
      else (j :: pr.1, workerReport j s.encodeOk s.renameOk s.errMsg :: pr.2)

/-- The jobs `Process` admits: the longest prefix before a cancellation is
observed at the loop top or in the admission select. -/
def admittedOf (l : List (Job × JobSchedule)) : List (Job × JobSchedule) :=
  l.takeWhile (fun p => !(p.2.cancelAtLoop || p.2.cancelAtAdmit))

/-- The results `Process` actually collects: one per admitted job whose
goroutine did not observe cancellation at its start. -/
def resultsSpec (l : List (Job × JobSchedule)) : List ReportItem :=
  ((admittedOf l).filter (fun p => !p.2.cancelAtStart)).map
    (fun p => workerReport p.1 p.2.encodeOk p.2.renameOk p.2.errMsg)

/-- Counterexample to claim C5 as stated: a single job whose goroutine is
launched (admitted) but observes cancellation at its start produces no
`ReportItem` at all — the returned slice has zero results for one admitted
job, so an admitted job's outcome is dropped. -/
theorem process_admitted_without_result_counterexample :
    (processBatch [(Job.mk ("a.mp4") ("a.compressed.mp4")
        ("a.compressed.mp4.vcpart") 120,
      JobSchedule.mk false false true true true (""))]).1 =
      [Job.mk ("a.mp4") ("a.compressed.mp4") ("a.compressed.mp4.vcpart") 120] ∧
    (processBatch [(Job.mk ("a.mp4") ("a.compressed.mp4")
        ("a.compressed.mp4.vcpart") 120,
      JobSchedule.mk false false true true true (""))]).2 = [] := by
  constructor <;> rfl

/-- Claim C5 (amended): `Process` admits the longest prefix of jobs before a
cancellation is observed at admission, and the returned slice contains
exactly one `ReportItem` per admitted job whose goroutine started before
observing cancellation; an admitted goroutine that observes cancellation at
its start contributes no result.  In particular, with no cancellation at
all, there is exactly one result per job. -/
theorem process_one_result_per_started_job (l : List (Job × JobSchedule)) :
    processBatch l = ((admittedOf l).map Prod.fst, resultsSpec l) ∧
    ((∀ p ∈ l, p.2.cancelAtLoop = false ∧ p.2.cancelAtAdmit = false ∧
        p.2.cancelAtStart = false) →
      (processBatch l).2 =
        l.map (fun p => workerReport p.1 p.2.encodeOk p.2.renameOk p.2.errMsg) ∧
      (processBatch l).2.length = l.length) := by
  have main : ∀ m : List (Job × JobSchedule),
      processBatch m = ((admittedOf m).map Prod.fst, resultsSpec m) := by
    intro m
    induction m with
    | nil => rfl
    | cons hd rest ih =>
        obtain ⟨j, s⟩ := hd
        cases h1 : s.cancelAtLoop with
        | true => simp [processBatch, admittedOf, resultsSpec, List.takeWhile, h1]
        | false =>
            cases h2 : s.cancelAtAdmit with
            | true =>
                simp [processBatch, admittedOf, resultsSpec, List.takeWhile, h1, h2]
            | false =>
                cases h3 : s.cancelAtStart with
                | true =>
                    simp [processBatch, admittedOf, resultsSpec, List.takeWhile,
                      List.filter_cons, h1, h2, h3, ih]
                | false =>
                    simp [processBatch, admittedOf, resultsSpec, List.takeWhile,
                      List.filter_cons, h1, h2, h3, ih]
  refine ⟨main l, fun hall => ?_⟩
  have hres : ∀ m : List (Job × JobSchedule),
      (∀ p ∈ m, p.2.cancelAtLoop = false ∧ p.2.cancelAtAdmit = false ∧
        p.2.cancelAtStart = false) →
      resultsSpec m =
        m.map (fun p => workerReport p.1 p.2.encodeOk p.2.renameOk p.2.errMsg) := by
    intro m
    induction m with
    | nil => intro _; rfl
    | cons hd rest ih =>
        intro h
        obtain ⟨hl, ha, hs⟩ := h hd (List.mem_cons_self hd rest)
        have ihr := ih (fun q hq => h q (List.mem_cons_of_mem hd hq))
        simp only [resultsSpec, admittedOf] at ihr ⊢
        simp only [Bool.not_or] at ihr
        simp [List.takeWhile_cons, List.filter_cons, hl, ha, hs, ihr]
  have h2 := hres l hall
  rw [main l]
  constructor
  · exact h2
  · rw [h2, List.length_map]

theorem process_one_result_per_started_job_witness :
    (processBatch [(Job.mk ("a.mp4") ("a.compressed.mp4")
        ("a.compressed.mp4.vcpart") 120,
      JobSchedule.mk false false false true true ("")),
      (Job.mk ("b.mp4") ("b.compressed.mp4") ("b.compressed.mp4.vcpart") 60,
      JobSchedule.mk false false false false true ("boom"))]).2.length = 2 := by
  have h := (process_one_result_per_started_job
    [(Job.mk ("a.mp4") ("a.compressed.mp4") ("a.compressed.mp4.vcpart") 120,
      JobSchedule.mk false false false true true ("")),
     (Job.mk ("b.mp4") ("b.compressed.mp4") ("b.compressed.mp4.vcpart") 60,
      JobSchedule.mk false false false false true ("boom"))]).2 (by decide)
  simpa using h.2

/- ===== Segment Planner (segment-mode resume) ===== -/

/-- The persisted segment plan (`segmentResumeMeta` in the source); the
`float64` duration is a rational here. -/
structure segmentResumeMeta where
  InputFile : String
  OutputFile : String
  InputSize : Int
  InputModUnix : Int
  SegmentSeconds : Int
  DurationSec : ℚ
  TotalSegments : Int
deriving DecidableEq

/-- State of the `resume_meta.json` file in a segment workspace: absent,
unreadable/malformed, or a parsed plan (`loadSegmentMeta`'s three outcomes). -/
inductive SegMetaFile where
  | absent : SegMetaFile
  | malformed : SegMetaFile
  | ok (m : segmentResumeMeta) : SegMetaFile
deriving DecidableEq

/-- A segment workspace: its meta file and the set of finished segment
indices present on disk. -/
structure SegWorkspace where
  meta : SegMetaFile
  segments : List Nat
deriving DecidableEq

/-- The workspace after `os.RemoveAll(workDir)`. -/
def emptySegWorkspace : SegWorkspace := ⟨SegMetaFile.absent, []⟩

/-- `cleanupSegmentWorkspaceIfChanged` from the source: a missing meta file
keeps the workspace; an unreadable meta file wipes it; a parsed meta that
differs from the expected plan in input path, output path, input size, input
mtime, segment length, or total segment count wipes it; otherwise the
workspace (and its finished segments) is kept.  `DurationSec` is not
compared. -/
def cleanupSegmentWorkspaceIfChanged (w : SegWorkspace)
    (expected : segmentResumeMeta) : SegWorkspace :=
  match w.meta with
  | SegMetaFile.absent => w
  | SegMetaFile.malformed => emptySegWorkspace
  | SegMetaFile.ok m =>
    if m.InputFile ≠ expected.InputFile ∨
       m.OutputFile ≠ expected.OutputFile ∨
       m.InputSize ≠ expected.InputSize ∨
       m.InputModUnix ≠ expected.InputModUnix ∨
       m.SegmentSeconds ≠ expected.SegmentSeconds ∨
       m.TotalSegments ≠ expected.TotalSegments
    then emptySegWorkspace
    else w

/-- Claim C7: when a persisted plan exists, any difference from the freshly
computed plan in input path, output path, input size, input mtime, segment
length, or total segment count deletes the whole workspace including all
partial segments; if all of those fields match, the workspace and its
finished segments are kept. -/
theorem cleanup_wipes_iff_plan_changed (w : SegWorkspace)
    (m expected : segmentResumeMeta) (hmeta : w.meta = SegMetaFile.ok m) :
    ((m.InputFile ≠ expected.InputFile ∨
      m.OutputFile ≠ expected.OutputFile ∨
      m.InputSize ≠ expected.InputSize ∨
      m.InputModUnix ≠ expected.InputModUnix ∨
      m.SegmentSeconds ≠ expected.SegmentSeconds ∨
      m.TotalSegments ≠ expected.TotalSegments) →
      cleanupSegmentWorkspaceIfChanged w expected = emptySegWorkspace ∧
      (cleanupSegmentWorkspaceIfChanged w expected).segments = []) ∧
    ((m.InputFile = expected.InputFile ∧
      m.OutputFile = expected.OutputFile ∧
      m.InputSize = expected.InputSize ∧
      m.InputModUnix = expected.InputModUnix ∧
      m.SegmentSeconds = expected.SegmentSeconds ∧
      m.TotalSegments = expected.TotalSegments) →
      cleanupSegmentWorkspaceIfChanged w expected = w ∧
      (cleanupSegmentWorkspaceIfChanged w expected).segments = w.segments) := by
  constructor
  · intro hdiff
    have : cleanupSegmentWorkspaceIfChanged w expected = emptySegWorkspace := by
      simp only [cleanupSegmentWorkspaceIfChanged, hmeta]
      rw [if_pos hdiff]
    exact ⟨this, by rw [this]; rfl⟩
  · intro hsame
    obtain ⟨e1, e2, e3, e4, e5, e6⟩ := hsame
    have : cleanupSegmentWorkspaceIfChanged w expected = w := by
      simp only [cleanupSegmentWorkspaceIfChanged, hmeta]
      rw [if_neg (by simp [e1, e2, e3, e4, e5, e6])]
    exact ⟨this, by rw [this]⟩

theorem cleanup_wipes_iff_plan_changed_witness :
    (cleanupSegmentWorkspaceIfChanged
      (SegWorkspace.mk
        (SegMetaFile.ok
          (segmentResumeMeta.mk ("a.mp4") ("out.mp4") 100 7 600 1200 2))
        [0, 1])
      (segmentResumeMeta.mk ("a.mp4") ("out.mp4") 100 7 300 1200 4)).segments =
      [] :=
  ((cleanup_wipes_iff_plan_changed
      (SegWorkspace.mk
        (SegMetaFile.ok
          (segmentResumeMeta.mk ("a.mp4") ("out.mp4") 100 7 600 1200 2))
        [0, 1])
      (segmentResumeMeta.mk ("a.mp4") ("out.mp4") 100 7 600 1200 2)
      (segmentResumeMeta.mk ("a.mp4") ("out.mp4") 100 7 300 1200 4)
      rfl).1 (by decide)).2

/- ===== Runner error reporting and worker finalization (C8) ===== -/

/-- The error `ffmpeg.Run` returns when it fails: either the context's own
error (caller cancelled) or the process failure together with the captured
stderr diagnostics that the runner surfaces. -/
inductive RunErr where
  | ctxCanceled : RunErr
  | procFailure (errMsg : String) (stderrDiag : String) : RunErr
deriving DecidableEq

/-- The tail of `ffmpeg.Run` after the scanner loop: if `cmd.Wait` failed and
`errors.Is(ctx.Err(), context.Canceled)` holds, the context's error is
returned (no diagnostics attached); otherwise the wait error is returned
with the captured stderr surfaced.  `waitErr` carries the wait error's
message and the stderr buffer. -/
def runResult (ctxCancelled : Bool) (waitErr : Option (String × String)) :
    Except RunErr Unit :=
  match waitErr with
  | none => Except.ok ()
  | some (msg, diag) =>
      if ctxCancelled then Except.error RunErr.ctxCanceled
      else Except.error (RunErr.procFailure msg diag)

/-- `err.Error()` for the two runner error shapes: the context error's fixed
text, or the process error's own message. -/
def errString : RunErr → String
  | RunErr.ctxCanceled => "context canceled"
  | RunErr.procFailure m _ => m

/-- Which console notice the worker's error branch prints: the cancelled
notice when `ctx.Err() != nil`, the generic failure notice otherwise. -/
inductive CancelNotice where
  | cancelledNotice : CancelNotice
  | failureNotice : CancelNotice
deriving DecidableEq

/-- A worker's finalized error outcome: the report status/reason and the
notice chosen by the `ctx.Err() != nil` branch of the worker. -/
structure WorkerErrOutcome where
  status : String
  reason : String
  notice : CancelNotice
deriving DecidableEq

/-- The error branch of a batch worker in `Process`, given the runner's
error and whether the context was observed cancelled. -/
def finalizeWorkerError (ctxCancelled : Bool) (e : RunErr) : WorkerErrOutcome :=
  { status := "Failed"
    reason := errString e
    notice := if ctxCancelled then CancelNotice.cancelledNotice
              else CancelNotice.failureNotice }

/-- Claim C8: when the context is cancelled mid-run, `ffmpeg.Run` reports the
context's error rather than a generic process failure with diagnostics, and
the worker finalizes the job as a cancellation outcome (cancelled notice,
context error text) distinct from the generic error outcome. -/
theorem cancelled_run_reports_cancellation (msg diag : String) :
    runResult true (some (msg, diag)) = Except.error RunErr.ctxCanceled ∧
    RunErr.ctxCanceled ≠ RunErr.procFailure msg diag ∧
    finalizeWorkerError true RunErr.ctxCanceled =
      WorkerErrOutcome.mk ("Failed") ("context canceled")
        CancelNotice.cancelledNotice ∧
    (∀ e : RunErr, (finalizeWorkerError false e).notice =
      CancelNotice.failureNotice) ∧
    finalizeWorkerError true RunErr.ctxCanceled ≠
      finalizeWorkerError false (RunErr.procFailure msg diag) := by
  refine ⟨rfl, ?_, rfl, fun e => rfl, ?_⟩
  · intro h
    cases h
  · intro h
    have h2 := congrArg WorkerErrOutcome.notice h
    simp [finalizeWorkerError] at h2

theorem cancelled_run_reports_cancellation_witness :
    runResult true (some (("exit status 1"), ("stderr log"))) =
      Except.error RunErr.ctxCanceled ∧
    finalizeWorkerError true RunErr.ctxCanceled ≠
      finalizeWorkerError false
        (RunErr.procFailure ("exit status 1") ("stderr log")) :=
  ⟨(cancelled_run_reports_cancellation ("exit status 1") ("stderr log")).1,
   (cancelled_run_reports_cancellation ("exit status 1") ("stderr log")).2.2.2.2⟩

/- ===== Segment plan arithmetic (C9) ===== -/

/-- The segment count computed in `processSingleJobWithSegmentResume`:
`int(math.Ceil(durationSec / segmentSeconds))` clamped below by 1 (real
arithmetic modelled over `ℚ`). -/
def totalSegmentsOf (durationSec : ℚ) (segmentSeconds : Int) : Int :=
  if Int.ceil (durationSec / (segmentSeconds : ℚ)) < 1 then 1
  else Int.ceil (durationSec / (segmentSeconds : ℚ))

/-- `segmentDurationAt` from the source with its locals inlined:
`start := float64(idx*segmentSeconds)`, `left := totalDuration - start`,
and the result is `left` when `left < segmentSeconds`, else
`segmentSeconds`. -/
def segmentDurationAt (idx : Nat) (totalDuration : ℚ) (segmentSeconds : Int) : ℚ :=
  if totalDuration - (((idx : Int) * segmentSeconds : Int) : ℚ) <
      (segmentSeconds : ℚ)
  then totalDuration - (((idx : Int) * segmentSeconds : Int) : ℚ)
  else (segmentSeconds : ℚ)

/-- Claim C9: for total duration `d ≥ 0` and segment length `s > 0`, with
`K = max(1, ceil(d/s))` as the planner computes it, each per-segment
duration for `idx < K` equals `min(s, d - idx*s)` and is at most `s`, and
the segment durations sum to `d` exactly — the plan partitions the whole
duration with no gap and no overlap. -/
theorem segment_durations_partition (d : ℚ) (s : Int) (hd : 0 ≤ d)
    (hs : 0 < s) :
    (∀ idx : Nat, (idx : Int) < totalSegmentsOf d s →
      segmentDurationAt idx d s = min ((s : ℚ)) (d - (idx : ℚ) * (s : ℚ)) ∧
      segmentDurationAt idx d s ≤ (s : ℚ)) ∧
    (Finset.range (totalSegmentsOf d s).toNat).sum
      (fun idx => segmentDurationAt idx d s) = d := by
  have hsQ : (0 : ℚ) < (s : ℚ) := by exact_mod_cast hs
  constructor
  · intro idx _
    have hcast : (((idx : Int) * s : Int) : ℚ) = (idx : ℚ) * (s : ℚ) := by
      push_cast
      ring
    have heq : segmentDurationAt idx d s =
        min ((s : ℚ)) (d - (idx : ℚ) * (s : ℚ)) := by
      unfold segmentDurationAt
      rw [hcast]
      by_cases h : d - (idx : ℚ) * (s : ℚ) < (s : ℚ)
      · rw [if_pos h, min_eq_right (le_of_lt h)]
      · rw [if_neg h, min_eq_left (le_of_not_lt h)]
    exact ⟨heq, by rw [heq]; exact min_le_left _ _⟩
  · rcases lt_or_le (Int.ceil (d / (s : ℚ))) 1 with hA | hA
    · -- ceil < 1 with d ≥ 0 forces d = 0; a single segment of duration 0
      have hK : totalSegmentsOf d s = 1 := by
        unfold totalSegmentsOf
        rw [if_pos hA]
      have hds : 0 ≤ d / (s : ℚ) := div_nonneg hd (le_of_lt hsQ)
      have hA0 : 0 ≤ Int.ceil (d / (s : ℚ)) := Int.ceil_nonneg hds
      have hle : Int.ceil (d / (s : ℚ)) ≤ 0 := by omega
      have hdiv0 : d / (s : ℚ) ≤ 0 := by
        have h1 := Int.ceil_le.mp hle
        exact_mod_cast h1
      have hdiveq : d / (s : ℚ) = 0 := le_antisymm hdiv0 hds
      have hd0 : d = 0 := by
        have h2 : d = (d / (s : ℚ)) * (s : ℚ) := by
          field_simp
        rw [h2, hdiveq, zero_mul]
      rw [hK, hd0]
      simp [segmentDurationAt, hsQ]
    · -- at least one full ceil's worth of segments
      have hK : totalSegmentsOf d s = Int.ceil (d / (s : ℚ)) := by
        unfold totalSegmentsOf
        rw [if_neg (by omega)]
      have hnA : ((Int.ceil (d / (s : ℚ))).toNat : Int) =
          Int.ceil (d / (s : ℚ)) := Int.toNat_of_nonneg (by omega)
      have hn1 : 1 ≤ (Int.ceil (d / (s : ℚ))).toNat := by omega
      have hF1 : d ≤ ((Int.ceil (d / (s : ℚ)) : ℚ)) * (s : ℚ) := by
        have h1 : d / (s : ℚ) ≤ ((Int.ceil (d / (s : ℚ)) : ℚ)) := Int.le_ceil _
        rw [div_le_iff hsQ] at h1
        exact h1
      have hF2 : (((Int.ceil (d / (s : ℚ))) : ℚ) - 1) * (s : ℚ) < d := by
        have h1 : ((Int.ceil (d / (s : ℚ)) : ℚ)) < d / (s : ℚ) + 1 :=
          Int.ceil_lt_add_one (d / (s : ℚ))
        have h2 : ((Int.ceil (d / (s : ℚ)) : ℚ)) - 1 < d / (s : ℚ) := by
          linarith
        rw [lt_div_iff hsQ] at h2
        exact h2
      have hfull : ∀ i : ℕ, i < (Int.ceil (d / (s : ℚ))).toNat - 1 →
          segmentDurationAt i d s = (s : ℚ) := by
        intro i hi
        have hiz : (i : Int) + 2 ≤ Int.ceil (d / (s : ℚ)) := by omega
        have hizq : ((i : ℚ)) + 2 ≤ ((Int.ceil (d / (s : ℚ)) : ℚ)) := by
          exact_mod_cast hiz
        have hcast : (((i : Int) * s : Int) : ℚ) = (i : ℚ) * (s : ℚ) := by
          push_cast
          ring
        have hmul : ((i : ℚ) + 1) * (s : ℚ) ≤
            (((Int.ceil (d / (s : ℚ))) : ℚ) - 1) * (s : ℚ) :=
          mul_le_mul_of_nonneg_right (by linarith) (le_of_lt hsQ)
        have hlt : (i : ℚ) * (s : ℚ) + (s : ℚ) < d := by
          have := lt_of_le_of_lt hmul hF2
          linarith [this]
        unfold segmentDurationAt
        rw [hcast, if_neg (by linarith)]
      have hlast : segmentDurationAt ((Int.ceil (d / (s : ℚ))).toNat - 1) d s =
          d - (((Int.ceil (d / (s : ℚ))) : ℚ) - 1) * (s : ℚ) := by
        have hcast :
            ((((((Int.ceil (d / (s : ℚ))).toNat - 1 : ℕ)) : Int) * s : Int) : ℚ) =
              (((Int.ceil (d / (s : ℚ))) : ℚ) - 1) * (s : ℚ) := by
          have hc1 : ((((Int.ceil (d / (s : ℚ))).toNat - 1 : ℕ)) : Int) =
              Int.ceil (d / (s : ℚ)) - 1 := by omega
          rw [hc1]
          push_cast
          ring
        unfold segmentDurationAt
        rw [hcast]
        by_cases h : d - (((Int.ceil (d / (s : ℚ))) : ℚ) - 1) * (s : ℚ) < (s : ℚ)
        · rw [if_pos h]
        · rw [if_neg h]
          have h1 : d - (((Int.ceil (d / (s : ℚ))) : ℚ) - 1) * (s : ℚ) ≤ (s : ℚ) := by
            nlinarith [hF1]
          have h2 : (s : ℚ) ≤ d - (((Int.ceil (d / (s : ℚ))) : ℚ) - 1) * (s : ℚ) :=
            le_of_not_lt h
          linarith
      rw [hK]
      have hsplit : (Int.ceil (d / (s : ℚ))).toNat =
          ((Int.ceil (d / (s : ℚ))).toNat - 1) + 1 := by omega
      rw [hsplit, Finset.sum_range_succ,
        Finset.sum_congr rfl (fun i hi => hfull i (Finset.mem_range.mp hi)),
        Finset.sum_const, Finset.card_range, hlast, nsmul_eq_mul]
      have hc : (((Int.ceil (d / (s : ℚ))).toNat - 1 : ℕ) : ℚ) =
          ((Int.ceil (d / (s : ℚ)) : ℚ)) - 1 := by
        have hc1 : ((((Int.ceil (d / (s : ℚ))).toNat - 1 : ℕ)) : Int) =
            Int.ceil (d / (s : ℚ)) - 1 := by omega
        exact_mod_cast congrArg (fun z : Int => (z : ℚ)) hc1
      rw [hc]
      ring

theorem segment_durations_partition_witness :
    (0 : ℚ) ≤ 5 ∧ (0 : Int) < 2 ∧
    (Finset.range (totalSegmentsOf 5 2).toNat).sum
      (fun idx => segmentDurationAt idx 5 2) = 5 :=
  ⟨by norm_num, by norm_num,
   (segment_durations_partition 5 2 (by norm_num) (by norm_num)).2⟩
